import Mathlib

/-!
Verification of the Smart File Organizer core (src/lib.rs) against its
natural-language specification.

The Rust code is shallowly embedded: paths are lists of components, the
filesystem is the list of paths that exist, and every fallible syscall the
code performs (rename, copy, remove_file, create_dir_all, metadata, log
open/write) is an oracle fixed for the run in a `World` value.  The local
clock is a `today` string in the `World`.
-/

namespace SmartOrganizer

/-- A filesystem path, as the list of its components. -/
abbrev FPath := List String

/-- ASCII lowercasing of one character, as Rust `to_ascii_lowercase`. -/
def asciiLower (c : Char) : Char :=
  if 'A' ≤ c ∧ c ≤ 'Z' then Char.ofNat (c.toNat + 32) else c

/-- Rust `str::eq_ignore_ascii_case`: equality after ASCII lowercasing. -/
def eqIgnoreAsciiCase (a b : String) : Bool :=
  a.data.map asciiLower == b.data.map asciiLower

/-- Rust `str::to_lowercase`, modelled on its ASCII behaviour (the
extensions in play are ASCII; non-ASCII characters are left unchanged). -/
def lowerString (s : String) : String :=
  String.mk (s.data.map asciiLower)

/-- `Config.categories`: the category to extension-list table.  The source
stores it in a `HashMap`; the model fixes one iteration order as a list. -/
abbrev Config := List (String × List String)

/-- `Config::categorize` (src/lib.rs lines 52-59): the first category whose
extension list contains the query up to ASCII case, else none. -/
def categorize (cfg : Config) (extension : String) : Option String :=
  match cfg with
  | [] => none
  | (category, extensions) :: rest =>
    if extensions.any (fun e => eqIgnoreAsciiCase e extension) then some category
    else categorize rest extension

/-- The built-in default categories (src/lib.rs lines 63-103). -/
def default_categories : Config :=
  [ ("Images", ["jpg", "jpeg", "png", "gif", "bmp", "webp", "svg"]),
    ("Documents", ["pdf", "doc", "docx", "txt", "rtf", "odt", "xlsx", "csv"]),
    ("Videos", ["mp4", "mkv", "mov", "avi", "webm"]),
    ("Music", ["mp3", "wav", "flac", "aac", "ogg"]),
    ("Archives", ["zip", "rar", "7z", "tar", "gz"]) ]

/-- Decimal digits of `n`, most significant first, with structural fuel
(any fuel above `n` gives the true digits).  Models the digit stream of
Rust integer formatting. -/
def toDecDigitsAux (fuel : Nat) (n : Nat) : List Nat :=
  match fuel with
  | 0 => []
  | fuel + 1 => if n < 10 then [n] else toDecDigitsAux fuel (n / 10) ++ [n % 10]

/-- Decimal digits of `n`, most significant first. -/
def toDecDigits (n : Nat) : List Nat :=
  toDecDigitsAux (n + 1) n

/-- Reading a most-significant-first digit list back as a number. -/
def decValue (ds : List Nat) : Nat :=
  ds.foldl (fun a d => a * 10 + d) 0

/-- Decimal rendering of a natural number: Rust integer `Display`. -/
def natRepr (n : Nat) : String :=
  String.mk ((toDecDigits n).map Nat.digitChar)

theorem decValue_append_digit (l : List Nat) (d : Nat) :
    decValue (l ++ [d]) = decValue l * 10 + d := by
  simp [decValue, List.foldl_append]

theorem decValue_toDecDigitsAux (fuel n : Nat) (h : n < fuel) :
    decValue (toDecDigitsAux fuel n) = n := by
  induction fuel generalizing n with
  | zero => omega
  | succ fuel ih =>
    rw [toDecDigitsAux]
    by_cases h10 : n < 10
    · simp [h10, decValue]
    · have hdiv : n / 10 < fuel := by
        have hlt : n / 10 < n := Nat.div_lt_self (by omega) (by norm_num)
        omega
      simp only [h10, if_false]
      rw [decValue_append_digit, ih _ hdiv]
      omega

theorem decValue_toDecDigits (n : Nat) : decValue (toDecDigits n) = n :=
  decValue_toDecDigitsAux (n + 1) n (Nat.lt_succ_self n)

theorem toDecDigits_injective : Function.Injective toDecDigits := by
  intro a b h
  have ha := decValue_toDecDigits a
  have hb := decValue_toDecDigits b
  rw [← ha, ← hb, h]

theorem toDecDigitsAux_lt_ten (fuel n : Nat) (h : n < fuel) :
    ∀ d ∈ toDecDigitsAux fuel n, d < 10 := by
  induction fuel generalizing n with
  | zero => omega
  | succ fuel ih =>
    rw [toDecDigitsAux]
    by_cases h10 : n < 10
    · simp only [if_pos h10]
      intro d hd
      simp at hd
      omega
    · have hdiv : n / 10 < fuel := by
        have hlt : n / 10 < n := Nat.div_lt_self (by omega) (by norm_num)
        omega
      simp only [h10, if_false]
      intro d hd
      rcases List.mem_append.mp hd with hmem | hmem
      · exact ih _ hdiv d hmem
      · simp at hmem
        omega

theorem digitChar_inj_lt_ten :
    ∀ d < 10, ∀ e < 10, Nat.digitChar d = Nat.digitChar e → d = e := by
  decide

theorem map_digitChar_inj :
    ∀ xs ys : List Nat, (∀ x ∈ xs, x < 10) → (∀ y ∈ ys, y < 10) →
      xs.map Nat.digitChar = ys.map Nat.digitChar → xs = ys := by
  intro xs
  induction xs with
  | nil =>
    intro ys _ _ h
    cases ys with
    | nil => rfl
    | cons y ys => simp at h
  | cons x xs ih =>
    intro ys hx hy h
    cases ys with
    | nil => simp at h
    | cons y ys =>
      simp only [List.map_cons, List.cons.injEq] at h
      have hxy : x = y :=
        digitChar_inj_lt_ten x (hx x (by simp)) y (hy y (by simp)) h.1
      have : xs = ys := by
        refine ih ys (fun a ha => hx a (by simp [ha])) (fun a ha => hy a (by simp [ha])) h.2
      rw [hxy, this]

theorem natRepr_injective : Function.Injective natRepr := by
  intro a b h
  have hdata : (toDecDigits a).map Nat.digitChar = (toDecDigits b).map Nat.digitChar :=
    congrArg String.data h
  have hlt : ∀ d ∈ toDecDigits a, d < 10 :=
    toDecDigitsAux_lt_ten (a + 1) a (Nat.lt_succ_self a)
  have hlt2 : ∀ d ∈ toDecDigits b, d < 10 :=
    toDecDigitsAux_lt_ten (b + 1) b (Nat.lt_succ_self b)
  exact toDecDigits_injective (map_digitChar_inj _ _ hlt hlt2 hdata)

/-- The versioned file name the collision loop builds:
stem, underscore, today, underscore-v, n, dot, ext. -/
def versionedName (stem today ext : String) (n : Nat) : String :=
  stem ++ "_" ++ today ++ "_v" ++ natRepr n ++ "." ++ ext

/-- The dated file name: stem, underscore, today, dot, ext. -/
def datedName (stem today ext : String) : String :=
  stem ++ "_" ++ today ++ "." ++ ext

theorem versionedName_injective (stem today ext : String) :
    Function.Injective (versionedName stem today ext) := by
  intro a b h
  unfold versionedName at h
  have hd := congrArg String.data h
  simp only [String.data_append] at hd
  have h1 := List.append_cancel_right hd
  have h2 := List.append_cancel_right h1
  have h3 := List.append_cancel_left h2
  exact natRepr_injective (by apply String.ext; exact h3)

/-- Split a character list at its last dot: the part before and the part
after.  Returns none when there is no dot. -/
def splitExtAux : List Char → Option (List Char × List Char)
  | [] => none
  | c :: rest =>
    match splitExtAux rest with
    | some (b, e) => some (c :: b, e)
    | none => if c = '.' then some ([], rest) else none

/-- Rust `Path::file_stem` / `Path::extension` on a file name, as one split:
a dot in the first position does not count as a separator, so a name that
begins with a dot and has no other dot has no extension. -/
def rustSplitName (name : String) : String × Option String :=
  match name.data with
  | [] => (name, none)
  | c :: rest =>
    match splitExtAux rest with
    | some (b, e) => (String.mk (c :: b), some (String.mk e))
    | none => (name, none)

/-- Rust `Path::file_stem` on a file name (src/lib.rs line 391). -/
def file_stem (name : String) : String :=
  (rustSplitName name).1

/-- Rust `Path::extension` on a file name (src/lib.rs line 215). -/
def rustExtension (name : String) : Option String :=
  (rustSplitName name).2

/-- No injective sequence of paths fits inside a finite path list: some
index at most the list length escapes it. -/
theorem exists_lt_not_mem_of_injective {f : ℕ → FPath} (hf : Function.Injective f)
    (l : List FPath) : ∃ k ≤ l.length, f k ∉ l := by
  by_contra hcon
  push_neg at hcon
  have hsub : Finset.image f (Finset.range (l.length + 1)) ⊆ l.toFinset := by
    intro x hx
    rcases Finset.mem_image.mp hx with ⟨k, hk, rfl⟩
    exact List.mem_toFinset.mpr (hcon k (by simpa using Nat.lt_succ_iff.mp (Finset.mem_range.mp hk)))
  have hcard := Finset.card_le_card hsub
  rw [Finset.card_image_of_injective _ hf, Finset.card_range] at hcard
  have htf := l.toFinset_card_le
  omega

theorem versioned_injective_path (dir : FPath) (stem today ext : String) :
    Function.Injective (fun k => dir ++ [versionedName stem today ext (2 + k)]) := by
  intro a b h
  simp only at h
  have h1 := List.append_cancel_left h
  have h2 : versionedName stem today ext (2 + a) = versionedName stem today ext (2 + b) := by
    simpa using h1
  have := versionedName_injective stem today ext h2
  omega

/-- Some version index gives a path outside the current filesystem. -/
theorem exists_free_version (fsys : List FPath) (dir : FPath) (stem today ext : String) :
    ∃ k, dir ++ [versionedName stem today ext (2 + k)] ∉ fsys := by
  rcases exists_lt_not_mem_of_injective (versioned_injective_path dir stem today ext) fsys with
    ⟨k, _, hk⟩
  exact ⟨k, hk⟩

/-- `resolve_collision` (src/lib.rs lines 384-412) as a function of the set
of existing paths and today's date, both of which the source reads from the
live filesystem and clock.  The destination is dir/original_name when free,
else the dated name, else the first free versioned name from v2 upward; the
unbounded source loop is rendered by its denotation, the least free version
index (`Nat.find`; the loop itself is `tryVersions`). -/
def resolve_collision (fsys : List FPath) (dir : FPath) (original_name ext today : String) :
    FPath :=
  let candidate := dir ++ [original_name]
  if candidate ∈ fsys then
    let stem := file_stem original_name
    let dated := dir ++ [datedName stem today ext]
    if dated ∈ fsys then
      dir ++ [versionedName stem today ext
        (2 + Nat.find (exists_free_version fsys dir stem today ext))]
    else dated
  else candidate

/-- The version loop of `resolve_collision` (src/lib.rs lines 404-411), with
explicit fuel: try index n, then n+1, and so on; none when fuel runs out. -/
def tryVersions (fsys : List FPath) (dir : FPath) (stem today ext : String) :
    Nat → Nat → Option FPath
  | _, 0 => none
  | n, fuel + 1 =>
    let versioned := dir ++ [versionedName stem today ext n]
    if versioned ∈ fsys then tryVersions fsys dir stem today ext (n + 1) fuel
    else some versioned

/-- The candidate sequence the specification describes: the original name,
then the dated name, then the versioned names v2, v3, and so on. -/
def candidateSeq (dir : FPath) (original_name ext today : String) : Nat → FPath
  | 0 => dir ++ [original_name]
  | 1 => dir ++ [datedName (file_stem original_name) today ext]
  | k + 2 => dir ++ [versionedName (file_stem original_name) today ext (k + 2)]

theorem tryVersions_reaches_free (fsys : List FPath) (dir : FPath) (stem today ext : String) :
    ∀ fuel n, (∃ k < fuel, dir ++ [versionedName stem today ext (n + k)] ∉ fsys) →
      ∃ p, tryVersions fsys dir stem today ext n fuel = some p ∧ p ∉ fsys := by
  intro fuel
  induction fuel with
  | zero =>
    rintro n ⟨k, hk, _⟩
    omega
  | succ fuel ih =>
    rintro n ⟨k, hk, hfree⟩
    rw [tryVersions]
    by_cases hmem : dir ++ [versionedName stem today ext n] ∈ fsys
    · simp only [hmem, if_true]
      apply ih
      cases k with
      | zero => exact absurd (by simpa using hmem) hfree
      | succ k =>
        refine ⟨k, by omega, ?_⟩
        have : n + 1 + k = n + (k + 1) := by omega
        rw [this]
        exact hfree
    · exact ⟨dir ++ [versionedName stem today ext n], by simp [hmem], hmem⟩

/-- C9: resolve_collision terminates on every input: when only finitely many
paths exist (here: the list fsys), the version-suffix loop starting at v2
reaches a non-existing path within fsys.length + 1 iterations and returns
it. -/
theorem resolve_collision_loop_terminates (fsys : List FPath) (dir : FPath)
    (stem today ext : String) :
    ∃ p, tryVersions fsys dir stem today ext 2 (fsys.length + 1) = some p ∧ p ∉ fsys := by
  apply tryVersions_reaches_free
  rcases exists_lt_not_mem_of_injective (versioned_injective_path dir stem today ext) fsys with
    ⟨k, hk, hfree⟩
  exact ⟨k, by omega, by simpa using hfree⟩

/-- C2: resolve_collision returns a path that does not exist in the given
filesystem state, namely the first element of the sequence dir/name,
dir/stem_today.ext, dir/stem_today_v2.ext, dir/stem_today_v3.ext, ... that
does not exist. -/
theorem resolve_collision_first_free (fsys : List FPath) (dir : FPath)
    (original_name ext today : String) :
    ∃ i, resolve_collision fsys dir original_name ext today =
        candidateSeq dir original_name ext today i ∧
      candidateSeq dir original_name ext today i ∉ fsys ∧
      ∀ j < i, candidateSeq dir original_name ext today j ∈ fsys := by
  unfold resolve_collision
  by_cases h0 : dir ++ [original_name] ∈ fsys
  · simp only [h0, if_true]
    by_cases h1 : dir ++ [datedName (file_stem original_name) today ext] ∈ fsys
    · simp only [h1, if_true]
      refine ⟨2 + Nat.find (exists_free_version fsys dir (file_stem original_name) today ext),
        ?_, ?_, ?_⟩
      · have hc : 2 + Nat.find (exists_free_version fsys dir (file_stem original_name) today ext)
            = Nat.find (exists_free_version fsys dir (file_stem original_name) today ext) + 2 := by
          omega
        rw [hc]
        simp only [candidateSeq]
      · have hc : 2 + Nat.find (exists_free_version fsys dir (file_stem original_name) today ext)
            = Nat.find (exists_free_version fsys dir (file_stem original_name) today ext) + 2 := by
          omega
        rw [hc]
        simp only [candidateSeq]
        rw [Nat.add_comm]
        exact Nat.find_spec (exists_free_version fsys dir (file_stem original_name) today ext)
      · intro j hj
        match j with
        | 0 => exact h0
        | 1 => exact h1
        | k + 2 =>
          simp only [candidateSeq]
          have hk : k < Nat.find (exists_free_version fsys dir (file_stem original_name) today ext) := by
            omega
          have := Nat.find_min (exists_free_version fsys dir (file_stem original_name) today ext) hk
          rw [Nat.add_comm] at this
          exact not_not.mp this
    · simp only [h1, if_false]
      exact ⟨1, rfl, h1, by intro j hj; interval_cases j; exact h0⟩
  · simp only [h0, if_false]
    exact ⟨0, rfl, h0, by omega⟩

/-- C4: categorize returns a category only when that category's extension
list contains the query up to ASCII case; it returns none exactly when no
category's list does; on the default configuration it is case-insensitive
(JPG versus jpg) and unknown extensions, the empty one included, yield
none. -/
theorem categorize_sound_complete (cfg : Config) (e : String) :
    (∀ c, categorize cfg e = some c →
      ∃ p ∈ cfg, p.1 = c ∧ ∃ s ∈ p.2, eqIgnoreAsciiCase s e = true) ∧
    (categorize cfg e = none ↔ ∀ p ∈ cfg, ∀ s ∈ p.2, eqIgnoreAsciiCase s e = false) ∧
    categorize default_categories "JPG" = categorize default_categories "jpg" ∧
    categorize default_categories "" = none ∧
    categorize default_categories "xyz" = none := by
  refine ⟨?_, ?_, by decide, by decide, by decide⟩
  · induction cfg with
    | nil =>
      intro c h
      simp [categorize] at h
    | cons p rest ih =>
      intro c h
      obtain ⟨cat, exts⟩ := p
      rw [categorize] at h
      by_cases hany : exts.any (fun s => eqIgnoreAsciiCase s e) = true
      · rw [if_pos hany] at h
        obtain ⟨s, hs, heq⟩ := List.any_eq_true.mp hany
        refine ⟨(cat, exts), by simp, ?_, ⟨s, hs, heq⟩⟩
        simpa using h
      · rw [if_neg hany] at h
        obtain ⟨q, hq, hrest⟩ := ih c h
        exact ⟨q, by simp [hq], hrest⟩
  · induction cfg with
    | nil => simp [categorize]
    | cons p rest ih =>
      obtain ⟨cat, exts⟩ := p
      rw [categorize]
      by_cases hany : exts.any (fun s => eqIgnoreAsciiCase s e) = true
      · rw [if_pos hany]
        obtain ⟨s, hs, heq⟩ := List.any_eq_true.mp hany
        constructor
        · intro hnone
          exact (Option.some_ne_none cat hnone).elim
        · intro hall
          have := hall (cat, exts) (by simp) s hs
          rw [heq] at this
          exact (Bool.true_eq_false.mp this).elim
      · rw [if_neg hany]
        rw [ih]
        constructor
        · intro hall q hq s hs
          rcases List.mem_cons.mp hq with hq1 | hq2
          · subst hq1
            by_contra hne
            exact hany (List.any_eq_true.mpr ⟨s, hs, by simpa using hne⟩)
          · exact hall q hq2 s hs
        · intro hall q hq s hs
          exact hall q (by simp [hq]) s hs

/-- A directory entry of the tree being organized: a plain file, or a
subdirectory together with whether fs::read_dir succeeds on it and its own
entries. -/
inductive FSEntry : Type where
  | file (name : String)
  | dir (name : String) (readable : Bool) (entries : List FSEntry)

/-- Rust str::starts_with applied to a dot: the first character is a dot. -/
def startsWithDot (s : String) : Bool :=
  s.data.head? == some '.'

mutual

/-- The treatment of one directory entry in the walk loop (src/lib.rs
lines 345-363): a dot-entry of either kind contributes nothing, a
directory whose name is in skip is not descended into, a plain file
contributes itself, and a surviving directory contributes its recursive
walk. -/
def collectEntry (skip : List String) (cur : FPath) : FSEntry → Except String (List FPath)
  | FSEntry.file name =>
    if startsWithDot name then .ok [] else .ok [cur ++ [name]]
  | FSEntry.dir name r es =>
    if startsWithDot name || skip.contains name then .ok []
    else collect_files skip (cur ++ [name]) r es

/-- collect_files (src/lib.rs lines 342-367): recursively list the files
under a directory, in entry order with subdirectory contents inline.
Descending into a directory on which fs::read_dir fails aborts the walk
with that error.  The Bool argument is whether read_dir succeeds on the
directory currently being read. -/
def collect_files (skip : List String) : FPath → Bool → List FSEntry → Except String (List FPath)
  | _, false, _ => .error ("read_dir failed")
  | _, true, [] => .ok []
  | cur, true, e :: rest =>
    match collectEntry skip cur e with
    | .error err => .error err
    | .ok out1 =>
      match collect_files skip cur true rest with
      | .error err => .error err
      | .ok out2 => .ok (out1 ++ out2)

end

/-- rel is a component path reaching a file inside an entry list: the
intermediate components name subdirectories, the last names a file. -/
inductive ReachesFile : List FSEntry → List String → Prop where
  | file {es : List FSEntry} {name : String} :
      FSEntry.file name ∈ es → ReachesFile es [name]
  | dir {es : List FSEntry} {name : String} {r : Bool} {sub : List FSEntry} {q : List String} :
      FSEntry.dir name r sub ∈ es → ReachesFile sub q → ReachesFile es (name :: q)

theorem reachesFile_ne_nil {es : List FSEntry} {rel : List String}
    (h : ReachesFile es rel) : rel ≠ [] := by
  cases h <;> simp

theorem reachesFile_cons_file {name : String} {rest : List FSEntry} {rel : List String} :
    ReachesFile (FSEntry.file name :: rest) rel ↔ rel = [name] ∨ ReachesFile rest rel := by
  constructor
  · intro h
    cases h with
    | file hmem =>
      rcases List.mem_cons.mp hmem with heq | hmem2
      · left
        rw [FSEntry.file.injEq] at heq
        rw [heq]
      · right
        exact ReachesFile.file hmem2
    | dir hmem hq =>
      rcases List.mem_cons.mp hmem with heq | hmem2
      · exact absurd heq (by simp)
      · right
        exact ReachesFile.dir hmem2 hq
  · rintro (rfl | h)
    · exact ReachesFile.file (by simp)
    · cases h with
      | file hmem => exact ReachesFile.file (List.mem_cons_of_mem _ hmem)
      | dir hmem hq => exact ReachesFile.dir (List.mem_cons_of_mem _ hmem) hq

theorem reachesFile_cons_dir {name : String} {r : Bool} {sub rest : List FSEntry}
    {rel : List String} :
    ReachesFile (FSEntry.dir name r sub :: rest) rel ↔
      (∃ q, rel = name :: q ∧ ReachesFile sub q) ∨ ReachesFile rest rel := by
  constructor
  · intro h
    cases h with
    | file hmem =>
      rcases List.mem_cons.mp hmem with heq | hmem2
      · exact absurd heq (by simp)
      · right
        exact ReachesFile.file hmem2
    | dir hmem hq =>
      rcases List.mem_cons.mp hmem with heq | hmem2
      · rw [FSEntry.dir.injEq] at heq
        obtain ⟨h1, _, h3⟩ := heq
        subst h1
        subst h3
        exact Or.inl ⟨_, rfl, hq⟩
      · right
        exact ReachesFile.dir hmem2 hq
  · rintro (⟨q, rfl, hq⟩ | h)
    · exact ReachesFile.dir (List.mem_cons_self _ _) hq
    · cases h with
      | file hmem => exact ReachesFile.file (List.mem_cons_of_mem _ hmem)
      | dir hmem hq => exact ReachesFile.dir (List.mem_cons_of_mem _ hmem) hq

/-- The walk-output characterization, by strong induction on the size of
the entry list. -/
theorem collect_files_mem_aux (skip : List String) (N : Nat) :
    ∀ (es : List FSEntry) (cur : FPath) (l : List FPath), sizeOf es ≤ N →
      collect_files skip cur true es = .ok l →
      ∀ p, (p ∈ l ↔ ∃ rel, p = cur ++ rel ∧ ReachesFile es rel ∧
        (∀ c ∈ rel, startsWithDot c = false) ∧ ∀ c ∈ rel.dropLast, c ∉ skip) := by
  induction N with
  | zero =>
    intro es cur l hsz
    exfalso
    cases es with
    | nil => simp at hsz
    | cons a as =>
      have h1 : sizeOf (a :: as) = 1 + sizeOf a + sizeOf as := List.cons.sizeOf_spec a as
      omega
  | succ N ih =>
    intro es cur l hsz hok p
    match es with
    | [] =>
      rw [collect_files] at hok
      have hl : l = [] := by
        cases hok
        rfl
      subst hl
      simp only [List.not_mem_nil, false_iff]
      rintro ⟨rel, _, hre, _, _⟩
      cases hre with
      | file hmem => simp at hmem
      | dir hmem _ => simp at hmem
    | e :: rest =>
      have hcons : sizeOf (e :: rest) = 1 + sizeOf e + sizeOf rest := List.cons.sizeOf_spec e rest
      have hszr : sizeOf rest ≤ N := by omega
      rw [collect_files] at hok
      cases hentry : collectEntry skip cur e with
      | error err =>
        rw [hentry] at hok
        cases hok
      | ok out1 =>
        rw [hentry] at hok
        cases hrest : collect_files skip cur true rest with
        | error err =>
          rw [hrest] at hok
          cases hok
        | ok out2 =>
          rw [hrest] at hok
          have hl : l = out1 ++ out2 := by
            cases hok
            rfl
          subst hl
          have ihrest := ih rest cur out2 hszr hrest
          cases e with
          | file name =>
            rw [collectEntry] at hentry
            by_cases hdot : startsWithDot name = true
            · rw [if_pos hdot] at hentry
              injection hentry with h2
              subst h2
              simp only [List.nil_append]
              rw [ihrest p]
              constructor
              · rintro ⟨rel, hp, hre, hdots, hsk⟩
                exact ⟨rel, hp, reachesFile_cons_file.mpr (Or.inr hre), hdots, hsk⟩
              · rintro ⟨rel, hp, hre, hdots, hsk⟩
                rcases reachesFile_cons_file.mp hre with rfl | hre2
                · exact absurd (hdots name (by simp)) (by simp [hdot])
                · exact ⟨rel, hp, hre2, hdots, hsk⟩
            · rw [if_neg hdot] at hentry
              injection hentry with h2
              subst h2
              rw [List.singleton_append, List.mem_cons, ihrest p]
              constructor
              · rintro (rfl | ⟨rel, hp, hre, hdots, hsk⟩)
                · refine ⟨[name], rfl, reachesFile_cons_file.mpr (Or.inl rfl), ?_, by simp⟩
                  intro c hc
                  simp at hc
                  subst hc
                  simpa using hdot
                · exact ⟨rel, hp, reachesFile_cons_file.mpr (Or.inr hre), hdots, hsk⟩
              · rintro ⟨rel, hp, hre, hdots, hsk⟩
                rcases reachesFile_cons_file.mp hre with rfl | hre2
                · exact Or.inl hp
                · exact Or.inr ⟨rel, hp, hre2, hdots, hsk⟩
          | dir name r es2 =>
            have hde : sizeOf (FSEntry.dir name r es2)
                = 1 + sizeOf name + sizeOf r + sizeOf es2 := FSEntry.dir.sizeOf_spec name r es2
            have hszs : sizeOf es2 ≤ N := by omega
            rw [collectEntry] at hentry
            by_cases hskipd : (startsWithDot name || skip.contains name) = true
            · rw [if_pos hskipd] at hentry
              injection hentry with h2
              subst h2
              simp only [List.nil_append]
              rw [ihrest p]
              constructor
              · rintro ⟨rel, hp, hre, hdots, hsk⟩
                exact ⟨rel, hp, reachesFile_cons_dir.mpr (Or.inr hre), hdots, hsk⟩
              · rintro ⟨rel, hp, hre, hdots, hsk⟩
                rcases reachesFile_cons_dir.mp hre with ⟨q, rfl, hq⟩ | hre2
                · rcases Bool.or_eq_true .. |>.mp hskipd with hd | hc
                  · exact absurd (hdots name (by simp)) (by simp [hd])
                  · have hqne : q ≠ [] := reachesFile_ne_nil hq
                    have hnmem : name ∈ (name :: q).dropLast := by
                      rw [List.dropLast_cons_of_ne_nil hqne]
                      simp
                    exact absurd (List.elem_iff.mp hc) (hsk name hnmem)
                · exact ⟨rel, hp, hre2, hdots, hsk⟩
            · rw [if_neg hskipd] at hentry
              have h0 : (startsWithDot name || skip.contains name) = false := by
                simp only [Bool.not_eq_true] at hskipd
                exact hskipd
              have hnd : startsWithDot name = false := (Bool.or_eq_false_iff.mp h0).1
              have hnsk : name ∉ skip := by
                intro hmem
                have hcontains : skip.contains name = true := List.elem_iff.mpr hmem
                rw [hcontains] at h0
                simp at h0
              cases r with
              | false =>
                rw [collect_files] at hentry
                cases hentry
              | true =>
                have ihsub := ih es2 (cur ++ [name]) out1 hszs hentry
                rw [List.mem_append, ihsub p, ihrest p]
                constructor
                · rintro (⟨q, hp, hq, hdots, hsk⟩ | ⟨rel, hp, hre, hdots, hsk⟩)
                  · have hqne : q ≠ [] := reachesFile_ne_nil hq
                    refine ⟨name :: q, by simp [hp],
                      reachesFile_cons_dir.mpr (Or.inl ⟨q, rfl, hq⟩), ?_, ?_⟩
                    · intro c hc
                      rcases List.mem_cons.mp hc with rfl | hc2
                      · exact hnd
                      · exact hdots c hc2
                    · intro c hc
                      rw [List.dropLast_cons_of_ne_nil hqne] at hc
                      rcases List.mem_cons.mp hc with rfl | hc2
                      · exact hnsk
                      · exact hsk c hc2
                  · exact ⟨rel, hp, reachesFile_cons_dir.mpr (Or.inr hre), hdots, hsk⟩
                · rintro ⟨rel, hp, hre, hdots, hsk⟩
                  rcases reachesFile_cons_dir.mp hre with ⟨q, rfl, hq⟩ | hre2
                  · have hqne : q ≠ [] := reachesFile_ne_nil hq
                    left
                    refine ⟨q, by simp [hp], hq, ?_, ?_⟩
                    · intro c hc
                      exact hdots c (by simp [hc])
                    · intro c hc
                      refine hsk c ?_
                      rw [List.dropLast_cons_of_ne_nil hqne]
                      simp [hc]
                  · exact Or.inr ⟨rel, hp, hre2, hdots, hsk⟩

/-- C6: collect_files enumerates exactly the files whose path under the
root has no dot-prefixed component and no excluded ancestor directory name;
a dot-entry of either kind is skipped, an excluded directory is not
descended into, and a file (non-directory) with an excluded name is still
returned, since the excluded-name condition only constrains the components
before the last one. -/
theorem collect_files_characterization (skip : List String) (cur : FPath)
    (es : List FSEntry) (l : List FPath)
    (h : collect_files skip cur true es = .ok l) (p : FPath) :
    p ∈ l ↔ ∃ rel, p = cur ++ rel ∧ ReachesFile es rel ∧
      (∀ c ∈ rel, startsWithDot c = false) ∧ ∀ c ∈ rel.dropLast, c ∉ skip :=
  collect_files_mem_aux skip (sizeOf es) es cur l (Nat.le_refl _) h p

/-- The four run counters (src/lib.rs Stats, lines 127-132). -/
structure Stats where
  moved : Nat
  duplicates : Nat
  skipped : Nat
  errors : Nat
deriving DecidableEq

/-- The run options (src/lib.rs OrganizeOpts, lines 115-120). -/
structure OrganizeOpts where
  path : FPath
  dry_run : Bool
  find_duplicates : Bool
  keep_structure : Bool

/-- The metadata organize reads for a file: byte size, and the modified
time already rendered at day granularity. -/
structure FileMeta where
  size : Nat
  modified_date : String

/-- The ambient filesystem and clock: the paths existing at the start, each
file's metadata, and the outcome of every fallible syscall, fixed for the
run. -/
structure World where
  fsys : List FPath
  meta : FPath → Except String FileMeta
  renameOk : FPath → FPath → Bool
  copyOk : FPath → FPath → Bool
  removeOk : FPath → Bool
  createDirOk : FPath → Bool
  logOpenOk : Bool
  logWriteOk : Bool
  today : String

/-- The file-name component of a path (Path::file_name with
unwrap_or_default). -/
def fileNameOf (p : FPath) : String :=
  (p.getLast?).getD ""

/-- The extension of a path's file name (src/lib.rs line 215). -/
def extOf (p : FPath) : Option String :=
  rustExtension (fileNameOf p)

/-- is_hidden_or_junk (src/lib.rs lines 370-379). -/
def is_hidden_or_junk (path : FPath) : Bool :=
  match path.getLast? with
  | none => true
  | some name =>
    startsWithDot name || name == "Thumbs.db" || name == "desktop.ini" ||
      name == "organizer_log.txt"

/-- move_file (src/lib.rs lines 416-425) over the model filesystem: try a
rename; on failure copy, then delete the source.  The returned list is the
set of existing paths afterwards.  A failed copy leaves everything in
place; a failed delete leaves the copy at the destination and surfaces the
delete error through the question-mark operator on fs::remove_file. -/
def move_file (w : World) (fsys : List FPath) (src dst : FPath) :
    List FPath × Except String Unit :=
  if w.renameOk src dst then (dst :: fsys.filter (fun p => p ≠ src), .ok ())
  else if w.copyOk src dst then
    if w.removeOk src then (dst :: fsys.filter (fun p => p ≠ src), .ok ())
    else (dst :: fsys, .error ("remove_file failed"))
  else (fsys, .error ("copy failed"))

/-- The orchestrator's mutable state while looping over the files: the
existing paths, the counters, the duplicate-fingerprint map, and the log
lines (none while the log is not open, as in dry-run). -/
structure OrgState where
  fsys : List FPath
  stats : Stats
  seen : List (String × FPath)
  log : Option (List String)
deriving DecidableEq

/-- Path rendering for log lines: the path relative to the base, joined
with slashes (strip_prefix with display). -/
def pathDisplay (base p : FPath) : String :=
  String.intercalate "/" (if base.isPrefixOf p then p.drop base.length else p)

/-- The relative path of a file under the base (strip_prefix with
unwrap_or falling back to the full path, src/lib.rs line 273). -/
def relativeOf (base p : FPath) : FPath :=
  if base.isPrefixOf p then p.drop base.length else p

/-- The destination directory of a categorized file (src/lib.rs lines
272-280): the category folder, plus the file's relative parent when
keep_structure is set and that parent is nonempty. -/
def destDirFor (opts : OrganizeOpts) (category : String) (file_path : FPath) : FPath :=
  if opts.keep_structure then
    let relative := relativeOf opts.path file_path
    if relative.dropLast ≠ [] then opts.path ++ [category] ++ relative.dropLast
    else opts.path ++ [category]
  else opts.path ++ [category]

/-- A per-file log line append: writeln with its Result discarded by .ok(),
so a failing write silently drops the line. -/
def logAppend (w : World) (log : Option (List String)) (line : String) : Option (List String) :=
  if w.logWriteOk then log.map (fun ls => ls ++ [line]) else log

/-- The duplicate-detection fingerprint key (src/lib.rs line 238): file
name, modified day and byte size, bar-separated. -/
def dupKey (p : FPath) (m : FileMeta) : String :=
  fileNameOf p ++ "|" ++ m.modified_date ++ "|" ++ natRepr m.size

/-- Recording a file in the seen map (src/lib.rs lines 251-257), a no-op
unless duplicate detection is on. -/
def recordSeen (opts : OrganizeOpts) (st : OrgState) (key : String) (p : FPath) : OrgState :=
  if opts.find_duplicates then { st with seen := (key, p) :: st.seen } else st

/-- The exists-check plus create_dir_all step (src/lib.rs lines 304-306):
keep the filesystem if the directory exists, else create it, else (when
create_dir_all fails) none, which aborts the run. -/
def createDirStep (w : World) (fsys : List FPath) (d : FPath) : Option (List FPath) :=
  if d ∈ fsys then some fsys
  else if w.createDirOk d then some (d :: fsys) else none

/-- The state after a successful move: moved counter bumped, log line
appended, filesystem as the move left it. -/
def movedState (w : World) (opts : OrganizeOpts) (st1 : OrgState) (fsys2 : List FPath)
    (src dst : FPath) : OrgState :=
  { st1 with fsys := fsys2,
             stats := { st1.stats with moved := st1.stats.moved + 1 },
             log := logAppend w st1.log
               (pathDisplay opts.path src ++ " -> " ++ pathDisplay opts.path dst) }

/-- The state after a failed move: errors counter bumped, filesystem as the
failed move left it. -/
def errorState (st1 : OrgState) (fsys2 : List FPath) : OrgState :=
  { st1 with fsys := fsys2,
             stats := { st1.stats with errors := st1.stats.errors + 1 } }

/-- One iteration of organize's per-file loop (src/lib.rs lines 206-331):
junk skip, extension extraction, metadata read (aborting on error),
duplicate check and record, categorization, destination resolution, then
dry-run preview or directory creation and move. -/
def processFile (w : World) (opts : OrganizeOpts) (cfg : Config) (st : OrgState)
    (file_path : FPath) : Except String OrgState :=
  if is_hidden_or_junk file_path then .ok st
  else
    match extOf file_path with
    | none => .ok { st with stats := { st.stats with skipped := st.stats.skipped + 1 } }
    | some e =>
      let ext := lowerString e
      match w.meta file_path with
      | .error err => .error err
      | .ok m =>
        let file_name := fileNameOf file_path
        let key := dupKey file_path m
        if opts.find_duplicates && (st.seen.lookup key).isSome then
          .ok { st with stats := { st.stats with duplicates := st.stats.duplicates + 1 } }
        else
          let st1 := recordSeen opts st key file_path
          match categorize cfg ext with
          | none => .ok { st1 with stats := { st1.stats with skipped := st1.stats.skipped + 1 } }
          | some category =>
            let dest_dir := destDirFor opts category file_path
            let dest_file := resolve_collision st1.fsys dest_dir file_name ext w.today
            if opts.dry_run then
              .ok { st1 with stats := { st1.stats with moved := st1.stats.moved + 1 } }
            else
              match createDirStep w st1.fsys dest_dir with
              | none => .error ("create_dir_all failed")
              | some fsys1 =>
                match move_file w fsys1 file_path dest_file with
                | (fsys2, .ok _) => .ok (movedState w opts st1 fsys2 file_path dest_file)
                | (fsys2, .error _) => .ok (errorState st1 fsys2)

/-- The log header lines (src/lib.rs lines 185-192), abstracted to their
content-bearing parts. -/
def logHeader (w : World) (opts : OrganizeOpts) : List String :=
  [ "Run started:  " ++ w.today,
    "Directory:    " ++ String.intercalate "/" opts.path,
    "Dry-run:      " ++ (if opts.dry_run then "true" else "false") ]

/-- Opening the log and writing its header (src/lib.rs lines 174-192):
skipped in dry-run, and both a failed open and a failed header write abort
the run through the question-mark operator. -/
def logSetup (w : World) (opts : OrganizeOpts) : Except String (Option (List String)) :=
  if opts.dry_run then Except.ok none
  else if w.logOpenOk then
    (if w.logWriteOk then Except.ok (some (logHeader w opts))
     else Except.error ("log write failed"))
  else Except.error ("log open failed")

/-- organize (src/lib.rs lines 152-334) over the model: walk the tree (the
category names excluded), return zero counters when nothing was found,
open the log unless dry-run, then fold the per-file loop over the
discovered files.  `rootReadable` and `entries` describe the directory at
opts.path. -/
def organize (w : World) (opts : OrganizeOpts) (cfg : Config) (rootReadable : Bool)
    (entries : List FSEntry) : Except String OrgState :=
  let category_names := cfg.map Prod.fst
  match collect_files category_names opts.path rootReadable entries with
  | .error e => .error e
  | .ok files =>
    if files.isEmpty then .ok ⟨w.fsys, ⟨0, 0, 0, 0⟩, [], none⟩
    else
      match logSetup w opts with
      | .error e => .error e
      | .ok log => files.foldlM (processFile w opts cfg) ⟨w.fsys, ⟨0, 0, 0, 0⟩, [], log⟩

/-- Whether reading the metadata succeeds. -/
def metaOk (w : World) (p : FPath) : Bool :=
  match w.meta p with
  | .ok _ => true
  | .error _ => false

/-- Whether the per-file loop reaches the duplicate check for this file:
not junk, an extension present, metadata readable. -/
def eligible (w : World) (p : FPath) : Bool :=
  !is_hidden_or_junk p && (extOf p).isSome && metaOk w p

/-- The fingerprint of a file as the loop computes it, as a function of
the world (empty when the metadata is unreadable, a case the run aborts
on anyway). -/
def fingerprint (w : World) (p : FPath) : String :=
  match w.meta p with
  | .ok m => dupKey p m
  | .error _ => ""

/-- The lowercased extension the loop categorizes by. -/
def extLower (p : FPath) : String :=
  lowerString ((extOf p).getD "")

/-- How many files of the list are duplicates of an earlier one: the
fingerprints of eligible files accumulate in ks, and an eligible file whose
fingerprint is already present counts one. -/
def laterDupCount (w : World) : List FPath → List String → Nat
  | [], _ => 0
  | p :: rest, ks =>
    if eligible w p then
      if ks.contains (fingerprint w p) then 1 + laterDupCount w rest ks
      else laterDupCount w rest (fingerprint w p :: ks)
    else laterDupCount w rest ks

/-- How many files of the list the loop moves (or, in dry-run, would
move): eligible, not a detected duplicate, and categorized. -/
def wouldMoveCount (w : World) (opts : OrganizeOpts) (cfg : Config) :
    List FPath → List String → Nat
  | [], _ => 0
  | p :: rest, ks =>
    if eligible w p then
      if opts.find_duplicates && ks.contains (fingerprint w p) then
        wouldMoveCount w opts cfg rest ks
      else
        (if (categorize cfg (extLower p)).isSome then 1 else 0) +
          wouldMoveCount w opts cfg rest
            (if opts.find_duplicates then fingerprint w p :: ks else ks)
    else wouldMoveCount w opts cfg rest ks

theorem lookup_isSome_iff_contains (l : List (String × FPath)) (k : String) :
    (l.lookup k).isSome = (l.map Prod.fst).contains k := by
  induction l with
  | nil => simp
  | cons a rest ih =>
    obtain ⟨k0, v⟩ := a
    by_cases h : k = k0
    · subst h
      simp [List.lookup]
    · have hne : (k == k0) = false := by simp [h]
      simp [List.lookup, hne, ih]

theorem recordSeen_fsys (opts : OrganizeOpts) (st : OrgState) (k : String) (p : FPath) :
    (recordSeen opts st k p).fsys = st.fsys := by
  rw [recordSeen]
  split <;> rfl

theorem recordSeen_stats (opts : OrganizeOpts) (st : OrgState) (k : String) (p : FPath) :
    (recordSeen opts st k p).stats = st.stats := by
  rw [recordSeen]
  split <;> rfl

theorem recordSeen_log (opts : OrganizeOpts) (st : OrgState) (k : String) (p : FPath) :
    (recordSeen opts st k p).log = st.log := by
  rw [recordSeen]
  split <;> rfl

theorem processFile_junk (w : World) (opts : OrganizeOpts) (cfg : Config) (st : OrgState)
    (p : FPath) (h : is_hidden_or_junk p = true) :
    processFile w opts cfg st p = .ok st := by
  rw [processFile]
  simp [h]

theorem processFile_no_ext (w : World) (opts : OrganizeOpts) (cfg : Config) (st : OrgState)
    (p : FPath) (hj : is_hidden_or_junk p = false) (he : extOf p = none) :
    processFile w opts cfg st p =
      .ok { st with stats := { st.stats with skipped := st.stats.skipped + 1 } } := by
  rw [processFile]
  simp [hj, he]

theorem processFile_meta_error (w : World) (opts : OrganizeOpts) (cfg : Config) (st : OrgState)
    (p : FPath) (e err : String) (hj : is_hidden_or_junk p = false) (he : extOf p = some e)
    (hm : w.meta p = .error err) :
    processFile w opts cfg st p = .error err := by
  rw [processFile]
  simp [hj, he, hm]

theorem processFile_dup_hit (w : World) (opts : OrganizeOpts) (cfg : Config) (st : OrgState)
    (p : FPath) (e : String) (m : FileMeta) (hj : is_hidden_or_junk p = false)
    (he : extOf p = some e) (hm : w.meta p = .ok m)
    (hdup : (opts.find_duplicates && (st.seen.lookup (dupKey p m)).isSome) = true) :
    processFile w opts cfg st p =
      .ok { st with stats := { st.stats with duplicates := st.stats.duplicates + 1 } } := by
  rw [processFile]
  simp [hj, he, hm, hdup]

theorem processFile_no_category (w : World) (opts : OrganizeOpts) (cfg : Config) (st : OrgState)
    (p : FPath) (e : String) (m : FileMeta) (hj : is_hidden_or_junk p = false)
    (he : extOf p = some e) (hm : w.meta p = .ok m)
    (hdup : (opts.find_duplicates && (st.seen.lookup (dupKey p m)).isSome) = false)
    (hcat : categorize cfg (lowerString e) = none) :
    processFile w opts cfg st p =
      .ok { recordSeen opts st (dupKey p m) p with
            stats := { st.stats with skipped := st.stats.skipped + 1 } } := by
  rw [processFile]
  simp [hj, he, hm, hdup, hcat, recordSeen_stats]

theorem processFile_dry_move (w : World) (opts : OrganizeOpts) (cfg : Config) (st : OrgState)
    (p : FPath) (e category : String) (m : FileMeta) (hj : is_hidden_or_junk p = false)
    (he : extOf p = some e) (hm : w.meta p = .ok m)
    (hdup : (opts.find_duplicates && (st.seen.lookup (dupKey p m)).isSome) = false)
    (hcat : categorize cfg (lowerString e) = some category)
    (hdry : opts.dry_run = true) :
    processFile w opts cfg st p =
      .ok { recordSeen opts st (dupKey p m) p with
            stats := { st.stats with moved := st.stats.moved + 1 } } := by
  rw [processFile]
  simp [hj, he, hm, hdup, hcat, hdry, recordSeen_stats]

theorem processFile_create_dir_fail (w : World) (opts : OrganizeOpts) (cfg : Config)
    (st : OrgState) (p : FPath) (e category : String) (m : FileMeta)
    (hj : is_hidden_or_junk p = false) (he : extOf p = some e) (hm : w.meta p = .ok m)
    (hdup : (opts.find_duplicates && (st.seen.lookup (dupKey p m)).isSome) = false)
    (hcat : categorize cfg (lowerString e) = some category)
    (hdry : opts.dry_run = false)
    (hcreate : createDirStep w st.fsys (destDirFor opts category p) = none) :
    processFile w opts cfg st p = .error ("create_dir_all failed") := by
  rw [processFile]
  simp [hj, he, hm, hdup, hcat, hdry, recordSeen_fsys, hcreate]

theorem processFile_move_error (w : World) (opts : OrganizeOpts) (cfg : Config) (st : OrgState)
    (p : FPath) (e category err : String) (m : FileMeta) (fsys1 fsys2 : List FPath)
    (hj : is_hidden_or_junk p = false) (he : extOf p = some e) (hm : w.meta p = .ok m)
    (hdup : (opts.find_duplicates && (st.seen.lookup (dupKey p m)).isSome) = false)
    (hcat : categorize cfg (lowerString e) = some category)
    (hdry : opts.dry_run = false)
    (hcreate : createDirStep w st.fsys (destDirFor opts category p) = some fsys1)
    (hmove : move_file w fsys1 p
        (resolve_collision st.fsys (destDirFor opts category p) (fileNameOf p)
          (lowerString e) w.today) = (fsys2, .error err)) :
    processFile w opts cfg st p =
      .ok (errorState (recordSeen opts st (dupKey p m) p) fsys2) := by
  rw [processFile]
  simp [hj, he, hm, hdup, hcat, hdry, recordSeen_fsys, hcreate, hmove]

theorem processFile_move_ok (w : World) (opts : OrganizeOpts) (cfg : Config) (st : OrgState)
    (p : FPath) (e category : String) (m : FileMeta) (fsys1 fsys2 : List FPath)
    (hj : is_hidden_or_junk p = false) (he : extOf p = some e) (hm : w.meta p = .ok m)
    (hdup : (opts.find_duplicates && (st.seen.lookup (dupKey p m)).isSome) = false)
    (hcat : categorize cfg (lowerString e) = some category)
    (hdry : opts.dry_run = false)
    (hcreate : createDirStep w st.fsys (destDirFor opts category p) = some fsys1)
    (hmove : move_file w fsys1 p
        (resolve_collision st.fsys (destDirFor opts category p) (fileNameOf p)
          (lowerString e) w.today) = (fsys2, .ok ())) :
    processFile w opts cfg st p =
      .ok (movedState w opts (recordSeen opts st (dupKey p m) p) fsys2 p
        (resolve_collision st.fsys (destDirFor opts category p) (fileNameOf p)
          (lowerString e) w.today)) := by
  rw [processFile]
  simp [hj, he, hm, hdup, hcat, hdry, recordSeen_fsys, hcreate, hmove]

theorem except_ok_bind {α β : Type} (a : α) (f : α → Except String β) :
    (Except.ok a >>= f) = f a := rfl

theorem except_error_bind {α β : Type} (e : String) (f : α → Except String β) :
    ((Except.error e : Except String α) >>= f) = .error e := rfl

theorem foldlM_nil {β : Type} (f : β → FPath → Except String β) (b : β) :
    List.foldlM f b [] = .ok b := rfl

theorem foldlM_cons {β : Type} (f : β → FPath → Except String β) (b : β) (a : FPath)
    (as : List FPath) :
    List.foldlM f b (a :: as) = f b a >>= fun s => List.foldlM f s as := rfl

theorem eligible_elim {w : World} {p : FPath} (h : eligible w p = true) :
    is_hidden_or_junk p = false ∧ (∃ e, extOf p = some e) ∧ ∃ m, w.meta p = .ok m := by
  rw [eligible] at h
  have ha := Bool.and_eq_true .. |>.mp h
  obtain ⟨h1, h2⟩ := Bool.and_eq_true .. |>.mp ha.1
  have h3 := ha.2
  refine ⟨by simpa using h1, Option.isSome_iff_exists.mp h2, ?_⟩
  rw [metaOk] at h3
  cases hm : w.meta p with
  | ok m => exact ⟨m, rfl⟩
  | error err =>
    rw [hm] at h3
    cases h3

theorem fingerprint_of_meta {w : World} {p : FPath} {m : FileMeta} (hm : w.meta p = .ok m) :
    fingerprint w p = dupKey p m := by
  rw [fingerprint, hm]

/-- How one ok step changes the duplicates counter and the seen map, with
duplicate detection on. -/
theorem processFile_dup_accounting (w : World) (opts : OrganizeOpts) (cfg : Config)
    (st : OrgState) (p : FPath) (st' : OrgState)
    (hfd : opts.find_duplicates = true)
    (h : processFile w opts cfg st p = .ok st') :
    (eligible w p = false ∧ st'.stats.duplicates = st.stats.duplicates ∧ st'.seen = st.seen) ∨
    (eligible w p = true ∧ (st.seen.map Prod.fst).contains (fingerprint w p) = true ∧
      st'.stats.duplicates = st.stats.duplicates + 1 ∧ st'.seen = st.seen) ∨
    (eligible w p = true ∧ (st.seen.map Prod.fst).contains (fingerprint w p) = false ∧
      st'.stats.duplicates = st.stats.duplicates ∧
      st'.seen = (fingerprint w p, p) :: st.seen) := by
  cases hj : is_hidden_or_junk p with
  | true =>
    rw [processFile_junk w opts cfg st p hj] at h
    injection h with h2
    subst h2
    exact Or.inl ⟨by simp [eligible, hj], rfl, rfl⟩
  | false =>
    cases he : extOf p with
    | none =>
      rw [processFile_no_ext w opts cfg st p hj he] at h
      injection h with h2
      subst h2
      exact Or.inl ⟨by simp [eligible, he], rfl, rfl⟩
    | some e =>
      cases hm : w.meta p with
      | error err =>
        rw [processFile_meta_error w opts cfg st p e err hj he hm] at h
        cases h
      | ok m =>
        have helig : eligible w p = true := by
          simp [eligible, hj, he, metaOk, hm]
        have hfp : fingerprint w p = dupKey p m := fingerprint_of_meta hm
        cases hdup : (st.seen.lookup (dupKey p m)).isSome with
        | true =>
          have hdup2 : (opts.find_duplicates && (st.seen.lookup (dupKey p m)).isSome) = true := by
            simp [hfd, hdup]
          rw [processFile_dup_hit w opts cfg st p e m hj he hm hdup2] at h
          injection h with h2
          subst h2
          refine Or.inr (Or.inl ⟨helig, ?_, rfl, rfl⟩)
          rw [hfp, ← lookup_isSome_iff_contains]
          exact hdup
        | false =>
          have hdup2 : (opts.find_duplicates && (st.seen.lookup (dupKey p m)).isSome) = false := by
            simp [hdup]
          have hcont : (st.seen.map Prod.fst).contains (fingerprint w p) = false := by
            rw [hfp, ← lookup_isSome_iff_contains]
            exact hdup
          have hseen : (recordSeen opts st (dupKey p m) p).seen = (fingerprint w p, p) :: st.seen := by
            rw [recordSeen, if_pos hfd, hfp]
          cases hcat : categorize cfg (lowerString e) with
          | none =>
            rw [processFile_no_category w opts cfg st p e m hj he hm hdup2 hcat] at h
            injection h with h2
            subst h2
            exact Or.inr (Or.inr ⟨helig, hcont, rfl, hseen⟩)
          | some category =>
            cases hdry : opts.dry_run with
            | true =>
              rw [processFile_dry_move w opts cfg st p e category m hj he hm hdup2 hcat hdry] at h
              injection h with h2
              subst h2
              exact Or.inr (Or.inr ⟨helig, hcont, rfl, hseen⟩)
            | false =>
              cases hcreate : createDirStep w st.fsys (destDirFor opts category p) with
              | none =>
                rw [processFile_create_dir_fail w opts cfg st p e category m hj he hm hdup2 hcat
                  hdry hcreate] at h
                cases h
              | some fsys1 =>
                rcases hmv : move_file w fsys1 p
                    (resolve_collision st.fsys (destDirFor opts category p) (fileNameOf p)
                      (lowerString e) w.today) with ⟨fsys2, res⟩
                cases res with
                | ok u =>
                  cases u
                  rw [processFile_move_ok w opts cfg st p e category m fsys1 fsys2 hj he hm hdup2
                    hcat hdry hcreate hmv] at h
                  injection h with h2
                  subst h2
                  refine Or.inr (Or.inr ⟨helig, hcont, ?_, ?_⟩)
                  · simp [movedState, recordSeen_stats]
                  · simp [movedState, hseen]
                | error err =>
                  rw [processFile_move_error w opts cfg st p e category err m fsys1 fsys2 hj he hm
                    hdup2 hcat hdry hcreate hmv] at h
                  injection h with h2
                  subst h2
                  refine Or.inr (Or.inr ⟨helig, hcont, ?_, ?_⟩)
                  · simp [errorState, recordSeen_stats]
                  · simp [errorState, hseen]

/-- How one ok step behaves in dry-run mode: the filesystem and the log
are untouched, the moved counter counts exactly the files that pass the
junk, extension, duplicate and category gates, and the seen map grows as
in a real run. -/
theorem processFile_dry_accounting (w : World) (opts : OrganizeOpts) (cfg : Config)
    (st : OrgState) (p : FPath) (st' : OrgState)
    (hdry : opts.dry_run = true)
    (h : processFile w opts cfg st p = .ok st') :
    st'.fsys = st.fsys ∧ st'.log = st.log ∧
    ((eligible w p = false ∧ st'.stats.moved = st.stats.moved ∧ st'.seen = st.seen) ∨
     (eligible w p = true ∧
       (opts.find_duplicates && (st.seen.map Prod.fst).contains (fingerprint w p)) = true ∧
       st'.stats.moved = st.stats.moved ∧ st'.seen = st.seen) ∨
     (eligible w p = true ∧
       (opts.find_duplicates && (st.seen.map Prod.fst).contains (fingerprint w p)) = false ∧
       st'.stats.moved = st.stats.moved +
         (if (categorize cfg (extLower p)).isSome then 1 else 0) ∧
       st'.seen = (if opts.find_duplicates then (fingerprint w p, p) :: st.seen
                   else st.seen))) := by
  cases hj : is_hidden_or_junk p with
  | true =>
    rw [processFile_junk w opts cfg st p hj] at h
    injection h with h2
    subst h2
    exact ⟨rfl, rfl, Or.inl ⟨by simp [eligible, hj], rfl, rfl⟩⟩
  | false =>
    cases he : extOf p with
    | none =>
      rw [processFile_no_ext w opts cfg st p hj he] at h
      injection h with h2
      subst h2
      exact ⟨rfl, rfl, Or.inl ⟨by simp [eligible, he], rfl, rfl⟩⟩
    | some e =>
      cases hm : w.meta p with
      | error err =>
        rw [processFile_meta_error w opts cfg st p e err hj he hm] at h
        cases h
      | ok m =>
        have helig : eligible w p = true := by
          simp [eligible, hj, he, metaOk, hm]
        have hfp : fingerprint w p = dupKey p m := fingerprint_of_meta hm
        have hext : extLower p = lowerString e := by
          simp [extLower, extOf] at he ⊢
          rw [he]
          simp
        have hlk : (st.seen.lookup (dupKey p m)).isSome
            = (st.seen.map Prod.fst).contains (fingerprint w p) := by
          rw [hfp, lookup_isSome_iff_contains]
        cases hdup : (opts.find_duplicates && (st.seen.lookup (dupKey p m)).isSome) with
        | true =>
          rw [processFile_dup_hit w opts cfg st p e m hj he hm hdup] at h
          injection h with h2
          subst h2
          refine ⟨rfl, rfl, Or.inr (Or.inl ⟨helig, ?_, rfl, rfl⟩)⟩
          rw [← hlk]
          exact hdup
        | false =>
          have hdup2 : (opts.find_duplicates &&
              (st.seen.map Prod.fst).contains (fingerprint w p)) = false := by
            rw [← hlk]
            exact hdup
          have hseen : (recordSeen opts st (dupKey p m) p).seen
              = (if opts.find_duplicates then (fingerprint w p, p) :: st.seen else st.seen) := by
            rw [recordSeen, hfp]
            cases opts.find_duplicates <;> simp
          cases hcat : categorize cfg (lowerString e) with
          | none =>
            rw [processFile_no_category w opts cfg st p e m hj he hm hdup hcat] at h
            injection h with h2
            subst h2
            refine ⟨recordSeen_fsys .., recordSeen_log .., Or.inr (Or.inr ⟨helig, hdup2, ?_, hseen⟩)⟩
            rw [hext, hcat]
            simp
          | some category =>
            rw [processFile_dry_move w opts cfg st p e category m hj he hm hdup hcat hdry] at h
            injection h with h2
            subst h2
            refine ⟨recordSeen_fsys .., recordSeen_log .., Or.inr (Or.inr ⟨helig, hdup2, ?_, hseen⟩)⟩
            rw [hext, hcat]
            simp

theorem foldlM_duplicates (w : World) (opts : OrganizeOpts) (cfg : Config)
    (hfd : opts.find_duplicates = true) :
    ∀ (files : List FPath) (st stFin : OrgState),
      List.foldlM (processFile w opts cfg) st files = .ok stFin →
      stFin.stats.duplicates = st.stats.duplicates +
        laterDupCount w files (st.seen.map Prod.fst) := by
  intro files
  induction files with
  | nil =>
    intro st stFin h
    rw [foldlM_nil] at h
    injection h with h2
    subst h2
    rw [laterDupCount]
    omega
  | cons p rest ih =>
    intro st stFin h
    rw [foldlM_cons] at h
    cases hstep : processFile w opts cfg st p with
    | error e =>
      rw [hstep, except_error_bind] at h
      cases h
    | ok st1 =>
      rw [hstep, except_ok_bind] at h
      have hrec := ih st1 stFin h
      rcases processFile_dup_accounting w opts cfg st p st1 hfd hstep with
        ⟨helig, hd, hs⟩ | ⟨helig, hc, hd, hs⟩ | ⟨helig, hc, hd, hs⟩
      · rw [laterDupCount, if_neg (by simp [helig])]
        rw [hs] at hrec
        rw [hrec, hd]
      · rw [laterDupCount, if_pos helig, if_pos hc]
        rw [hs] at hrec
        rw [hrec, hd]
        omega
      · rw [laterDupCount, if_pos helig, if_neg (by rw [hc]; simp)]
        rw [hs] at hrec
        simp only [List.map_cons] at hrec
        rw [hrec, hd]

theorem foldlM_dry (w : World) (opts : OrganizeOpts) (cfg : Config)
    (hdry : opts.dry_run = true) :
    ∀ (files : List FPath) (st stFin : OrgState),
      List.foldlM (processFile w opts cfg) st files = .ok stFin →
      stFin.fsys = st.fsys ∧ stFin.log = st.log ∧
      stFin.stats.moved = st.stats.moved +
        wouldMoveCount w opts cfg files (st.seen.map Prod.fst) := by
  intro files
  induction files with
  | nil =>
    intro st stFin h
    rw [foldlM_nil] at h
    injection h with h2
    subst h2
    exact ⟨rfl, rfl, by rw [wouldMoveCount]; omega⟩
  | cons p rest ih =>
    intro st stFin h
    rw [foldlM_cons] at h
    cases hstep : processFile w opts cfg st p with
    | error e =>
      rw [hstep, except_error_bind] at h
      cases h
    | ok st1 =>
      rw [hstep, except_ok_bind] at h
      obtain ⟨hfsys1, hlog1, hmoved1⟩ := ih st1 stFin h
      obtain ⟨hfsys0, hlog0, hbranch⟩ :=
        processFile_dry_accounting w opts cfg st p st1 hdry hstep
      refine ⟨by rw [hfsys1, hfsys0], by rw [hlog1, hlog0], ?_⟩
      rcases hbranch with ⟨helig, hmv, hs⟩ | ⟨helig, hc, hmv, hs⟩ | ⟨helig, hc, hmv, hs⟩
      · rw [wouldMoveCount, if_neg (by simp [helig])]
        rw [hs] at hmoved1
        rw [hmoved1, hmv]
      · rw [wouldMoveCount, if_pos helig, if_pos hc]
        rw [hs] at hmoved1
        rw [hmoved1, hmv]
      · rw [wouldMoveCount, if_pos helig, if_neg (by rw [hc]; simp)]
        have hks : st1.seen.map Prod.fst =
            (if opts.find_duplicates then fingerprint w p :: st.seen.map Prod.fst
             else st.seen.map Prod.fst) := by
          rw [hs]
          cases opts.find_duplicates <;> simp
        rw [hks] at hmoved1
        rw [hmoved1, hmv]
        omega

/-- C3: with duplicate detection on, a successful run counts in
`duplicates` exactly the files that are later occurrences of an earlier
eligible file's fingerprint (name, modified day, size); and any file whose
fingerprint is already in the seen map only bumps the duplicates counter:
it is not moved, not categorized, and the filesystem state is untouched. -/
theorem organize_duplicate_detection (w : World) (opts : OrganizeOpts) (cfg : Config)
    (r : Bool) (es : List FSEntry) (files : List FPath) (st : OrgState)
    (hfd : opts.find_duplicates = true)
    (hcollect : collect_files (cfg.map Prod.fst) opts.path r es = .ok files)
    (h : organize w opts cfg r es = .ok st) :
    st.stats.duplicates = laterDupCount w files [] ∧
    (∀ (s : OrgState) (q : FPath), eligible w q = true →
      (s.seen.lookup (fingerprint w q)).isSome = true →
      processFile w opts cfg s q =
        .ok { s with stats := { s.stats with duplicates := s.stats.duplicates + 1 } }) := by
  constructor
  · simp only [organize, hcollect] at h
    cases hemp : files.isEmpty with
    | true =>
      rw [List.isEmpty_iff] at hemp
      subst hemp
      simp only [List.isEmpty_nil, if_true] at h
      injection h with h2
      subst h2
      rw [laterDupCount]
    | false =>
      rw [if_neg (by simp [hemp])] at h
      cases hlog : logSetup w opts with
      | error e =>
        rw [hlog] at h
        cases h
      | ok log =>
        rw [hlog] at h
        have := foldlM_duplicates w opts cfg hfd files ⟨w.fsys, ⟨0, 0, 0, 0⟩, [], log⟩ st h
        simpa using this
  · intro s q helig hlook
    obtain ⟨hj, ⟨e, he⟩, ⟨m, hm⟩⟩ := eligible_elim helig
    have hfp : fingerprint w q = dupKey q m := fingerprint_of_meta hm
    rw [hfp] at hlook
    exact processFile_dup_hit w opts cfg s q e m hj he hm (by simp [hfd, hlook])

/-- C5: in dry-run mode a successful run leaves the model filesystem
exactly as it was and opens no log, while the moved counter counts every
file that would have been moved (eligible, not a detected duplicate,
categorized). -/
theorem organize_dry_run_frame (w : World) (opts : OrganizeOpts) (cfg : Config)
    (r : Bool) (es : List FSEntry) (files : List FPath) (st : OrgState)
    (hdry : opts.dry_run = true)
    (hcollect : collect_files (cfg.map Prod.fst) opts.path r es = .ok files)
    (h : organize w opts cfg r es = .ok st) :
    st.fsys = w.fsys ∧ st.log = none ∧
    st.stats.moved = wouldMoveCount w opts cfg files [] := by
  simp only [organize, hcollect] at h
  cases hemp : files.isEmpty with
  | true =>
    rw [List.isEmpty_iff] at hemp
    subst hemp
    simp only [List.isEmpty_nil, if_true] at h
    injection h with h2
    subst h2
    exact ⟨rfl, rfl, by rw [wouldMoveCount]⟩
  | false =>
    rw [if_neg (by simp [hemp])] at h
    have hlog : logSetup w opts = .ok none := by
      rw [logSetup, if_pos hdry]
    rw [hlog] at h
    have := foldlM_dry w opts cfg hdry files ⟨w.fsys, ⟨0, 0, 0, 0⟩, [], none⟩ st h
    simpa using this

theorem createDirStep_mono {w : World} {fsys : List FPath} {d : FPath} {fsys1 : List FPath}
    (h : createDirStep w fsys d = some fsys1) : ∀ x ∈ fsys, x ∈ fsys1 := by
  rw [createDirStep] at h
  intro x hx
  split at h
  · injection h with h2
    subst h2
    exact hx
  · split at h
    · injection h with h2
      subst h2
      exact List.mem_cons_of_mem _ hx
    · cases h

/-- C7: when both the rename and the copy fallback fail for a file, the
loop body returns ok — so the fold continues with the next discovered file
and the run still returns a successful result carrying the counters — with
the errors counter bumped by exactly one, every other counter unchanged,
and the file still present at its source. -/
theorem organize_move_failure_recoverable (w : World) (opts : OrganizeOpts) (cfg : Config)
    (s : OrgState) (p : FPath) (e category : String) (m : FileMeta) (fsys1 : List FPath)
    (hdry : opts.dry_run = false)
    (hj : is_hidden_or_junk p = false)
    (he : extOf p = some e)
    (hm : w.meta p = .ok m)
    (hdup : (opts.find_duplicates && (s.seen.lookup (dupKey p m)).isSome) = false)
    (hcat : categorize cfg (lowerString e) = some category)
    (hcreate : createDirStep w s.fsys (destDirFor opts category p) = some fsys1)
    (hrename : w.renameOk p (resolve_collision s.fsys (destDirFor opts category p)
        (fileNameOf p) (lowerString e) w.today) = false)
    (hcopy : w.copyOk p (resolve_collision s.fsys (destDirFor opts category p)
        (fileNameOf p) (lowerString e) w.today) = false) :
    ∃ s', processFile w opts cfg s p = .ok s' ∧
      s'.stats.errors = s.stats.errors + 1 ∧
      s'.stats.moved = s.stats.moved ∧
      s'.stats.skipped = s.stats.skipped ∧
      s'.stats.duplicates = s.stats.duplicates ∧
      (p ∈ s.fsys → p ∈ s'.fsys) := by
  have hmove : move_file w fsys1 p
      (resolve_collision s.fsys (destDirFor opts category p) (fileNameOf p)
        (lowerString e) w.today) = (fsys1, .error ("copy failed")) := by
    rw [move_file]
    simp [hrename, hcopy]
  refine ⟨errorState (recordSeen opts s (dupKey p m) p) fsys1,
    processFile_move_error w opts cfg s p e category ("copy failed") m fsys1 fsys1
      hj he hm hdup hcat hdry hcreate hmove, ?_, ?_, ?_, ?_, ?_⟩
  · simp [errorState, recordSeen_stats]
  · simp [errorState, recordSeen_stats]
  · simp [errorState, recordSeen_stats]
  · simp [errorState, recordSeen_stats]
  · intro hp
    simpa [errorState] using createDirStep_mono hcreate p hp

/-- C8: run-fatal I/O errors: a failed directory enumeration makes organize
return that error directly, and a failed metadata read on a discovered,
non-junk file with an extension aborts the fold — and hence organize —
with that error, so no counters are returned. -/
theorem organize_fatal_io (w : World) (opts : OrganizeOpts) (cfg : Config)
    (r : Bool) (es : List FSEntry) :
    (∀ err, collect_files (cfg.map Prod.fst) opts.path r es = .error err →
      organize w opts cfg r es = .error err) ∧
    (∀ (files1 : List FPath) (p : FPath) (files2 : List FPath)
        (log : Option (List String)) (s : OrgState) (e err : String),
      collect_files (cfg.map Prod.fst) opts.path r es = .ok (files1 ++ p :: files2) →
      logSetup w opts = .ok log →
      List.foldlM (processFile w opts cfg) ⟨w.fsys, ⟨0, 0, 0, 0⟩, [], log⟩ files1 = .ok s →
      is_hidden_or_junk p = false → extOf p = some e → w.meta p = .error err →
      organize w opts cfg r es = .error err) := by
  constructor
  · intro err hcollect
    simp only [organize, hcollect]
  · intro files1 p files2 log s e err hcollect hlog hfold hj he hm
    simp only [organize, hcollect]
    have hne : (files1 ++ p :: files2).isEmpty = false := by
      cases files1 <;> simp
    rw [hne]
    simp only [Bool.false_eq_true, if_false, hlog]
    rw [List.foldlM_append, hfold, except_ok_bind, foldlM_cons,
      processFile_meta_error w opts cfg s p e err hj he hm, except_error_bind]

/-- C10: the fingerprint check-and-record precedes categorization: with
duplicate detection on, an eligible file that matches no category is still
recorded in the seen map (while bumping skipped), the recorded key is
found by a lookup for the same fingerprint, and any later file processed
while its fingerprint is in the seen map bumps duplicates — not skipped. -/
theorem fingerprint_recorded_before_categorize (w : World) (opts : OrganizeOpts) (cfg : Config)
    (st : OrgState) (p : FPath) (e : String) (m : FileMeta)
    (hfd : opts.find_duplicates = true)
    (hj : is_hidden_or_junk p = false)
    (he : extOf p = some e)
    (hm : w.meta p = .ok m)
    (hnew : (st.seen.lookup (dupKey p m)).isSome = false)
    (hcat : categorize cfg (lowerString e) = none) :
    processFile w opts cfg st p =
      .ok { st with seen := (dupKey p m, p) :: st.seen
                    stats := { st.stats with skipped := st.stats.skipped + 1 } } ∧
    (((dupKey p m, p) :: st.seen).lookup (dupKey p m)).isSome = true ∧
    (∀ (s2 : OrgState) (q : FPath) (e2 : String) (m2 : FileMeta),
      is_hidden_or_junk q = false → extOf q = some e2 → w.meta q = .ok m2 →
      (s2.seen.lookup (dupKey q m2)).isSome = true →
      processFile w opts cfg s2 q =
        .ok { s2 with stats := { s2.stats with duplicates := s2.stats.duplicates + 1 } }) := by
  refine ⟨?_, ?_, ?_⟩
  · rw [processFile_no_category w opts cfg st p e m hj he hm (by simp [hnew]) hcat]
    rw [recordSeen, if_pos hfd]
  · simp [List.lookup]
  · intro s2 q e2 m2 hj2 he2 hm2 hlook
    exact processFile_dup_hit w opts cfg s2 q e2 m2 hj2 he2 hm2 (by simp [hfd, hlook])

/-- C1 (amended): when the rename fails, the copy succeeds and the delete
of the source fails, move_file returns the delete error — the question
mark on fs::remove_file propagates it — while the copy remains at the
destination, so the file exists at both locations; the orchestrator's loop
body consequently counts such a file in errors. -/
theorem move_file_delete_failure_amended (w : World) (fsys : List FPath) (src dst : FPath)
    (hrename : w.renameOk src dst = false)
    (hcopy : w.copyOk src dst = true)
    (hremove : w.removeOk src = false) :
    move_file w fsys src dst = (dst :: fsys, .error ("remove_file failed")) ∧
    (∀ (opts : OrganizeOpts) (cfg : Config) (st : OrgState) (e category : String)
        (m : FileMeta) (fsys1 : List FPath),
      opts.dry_run = false → is_hidden_or_junk src = false → extOf src = some e →
      w.meta src = .ok m →
      (opts.find_duplicates && (st.seen.lookup (dupKey src m)).isSome) = false →
      categorize cfg (lowerString e) = some category →
      createDirStep w st.fsys (destDirFor opts category src) = some fsys1 →
      resolve_collision st.fsys (destDirFor opts category src) (fileNameOf src)
        (lowerString e) w.today = dst →
      processFile w opts cfg st src =
        .ok (errorState (recordSeen opts st (dupKey src m) src) (dst :: fsys1))) := by
  have hmv : ∀ fs : List FPath, move_file w fs src dst = (dst :: fs, .error ("remove_file failed")) := by
    intro fs
    rw [move_file]
    simp [hrename, hcopy, hremove]
  refine ⟨hmv fsys, ?_⟩
  intro opts cfg st e category m fsys1 hdry hj he hm hdup hcat hcreate hdst
  refine processFile_move_error w opts cfg st src e category ("remove_file failed") m fsys1
    (dst :: fsys1) hj he hm hdup hcat hdry hcreate ?_
  rw [hdst]
  exact hmv fsys1

/-! Concrete fixtures used by the counterexample and the witnesses. -/

/-- A world in which every rename fails, every copy succeeds and every
delete fails: the copy-then-delete fallback always loses its delete. -/
def cexWorld : World where
  fsys := [["base", "b.txt"]]
  meta := fun _ => .ok ⟨3, "2026-02-12"⟩
  renameOk := fun _ _ => false
  copyOk := fun _ _ => true
  removeOk := fun _ => false
  createDirOk := fun _ => true
  logOpenOk := true
  logWriteOk := true
  today := "2026-02-12"

/-- A plain non-dry run over the base directory. -/
def cexOpts : OrganizeOpts where
  path := ["base"]
  dry_run := false
  find_duplicates := false
  keep_structure := false

/-- The loop state at the start of a run in cexWorld. -/
def cexState : OrgState where
  fsys := cexWorld.fsys
  stats := ⟨0, 0, 0, 0⟩
  seen := []
  log := some []

/-- C1 is false on the code: at this concrete input the rename fails, the
copy succeeds and the delete of the source fails, yet move_file reports
the delete error — not success — and the orchestrator's loop body counts
the file in errors (the claim says errors is not incremented). -/
theorem move_file_delete_failure_counterexample :
    (move_file cexWorld cexWorld.fsys ["base", "b.txt"] ["base", "Documents", "b.txt"]).2
        = .error ("remove_file failed") ∧
    ¬((move_file cexWorld cexWorld.fsys ["base", "b.txt"] ["base", "Documents", "b.txt"]).2
        = .ok ()) ∧
    (processFile cexWorld cexOpts default_categories cexState ["base", "b.txt"]).map
        (fun s => s.stats.errors) = .ok 1 := by
  have h1 : (move_file cexWorld cexWorld.fsys ["base", "b.txt"]
      ["base", "Documents", "b.txt"]).2 = .error ("remove_file failed") := rfl
  refine ⟨h1, ?_, rfl⟩
  rw [h1]
  intro h
  simp at h

/-- A dry, duplicate-detecting run. -/
def dupOpts : OrganizeOpts where
  path := ["base"]
  dry_run := true
  find_duplicates := true
  keep_structure := false

/-- A world with no pre-existing paths and constant metadata, so files of
the same name in different directories share a fingerprint. -/
def dupWorld : World where
  fsys := []
  meta := fun _ => .ok ⟨5, "2026-02-12"⟩
  renameOk := fun _ _ => true
  copyOk := fun _ _ => true
  removeOk := fun _ => true
  createDirOk := fun _ => true
  logOpenOk := true
  logWriteOk := true
  today := "2026-02-12"

/-- Two directories holding files with the same name, hence the same
fingerprint in dupWorld. -/
def dupTree : List FSEntry :=
  [ FSEntry.dir "d1" true [FSEntry.file "x.txt"],
    FSEntry.dir "d2" true [FSEntry.file "x.txt"] ]

theorem dup_collect :
    collect_files (default_categories.map Prod.fst) dupOpts.path true dupTree
      = .ok [["base", "d1", "x.txt"], ["base", "d2", "x.txt"]] := by
  rfl

/-- The final state of the dry duplicate-detecting run on dupTree. -/
def dupFinal : OrgState where
  fsys := []
  stats := ⟨1, 1, 0, 0⟩
  seen := [("x.txt|2026-02-12|5", ["base", "d1", "x.txt"])]
  log := none

theorem dup_run :
    organize dupWorld dupOpts default_categories true dupTree = .ok dupFinal := by
  rfl

theorem organize_duplicate_detection_witness :
    dupFinal.stats.duplicates
      = laterDupCount dupWorld [["base", "d1", "x.txt"], ["base", "d2", "x.txt"]] [] :=
  (organize_duplicate_detection dupWorld dupOpts default_categories true dupTree
    [["base", "d1", "x.txt"], ["base", "d2", "x.txt"]] dupFinal rfl dup_collect dup_run).1

theorem organize_dry_run_frame_witness :
    dupFinal.fsys = dupWorld.fsys ∧ dupFinal.log = none ∧
      dupFinal.stats.moved = wouldMoveCount dupWorld dupOpts default_categories
        [["base", "d1", "x.txt"], ["base", "d2", "x.txt"]] [] :=
  organize_dry_run_frame dupWorld dupOpts default_categories true dupTree
    [["base", "d1", "x.txt"], ["base", "d2", "x.txt"]] dupFinal rfl dup_collect dup_run

theorem categorize_sound_complete_witness :
    ∃ p ∈ default_categories, p.1 = "Images" ∧
      ∃ s ∈ p.2, eqIgnoreAsciiCase s "JPG" = true :=
  (categorize_sound_complete default_categories "JPG").1 "Images" (by decide)

/-- A tree with a category-named directory (excluded), a dot file inside a
descended directory, and a category-named plain file (still returned). -/
def walkTree : List FSEntry :=
  [ FSEntry.file "a.jpg",
    FSEntry.dir "Images" true [FSEntry.file "inside.png"],
    FSEntry.dir "sub" true [FSEntry.file ".hidden", FSEntry.file "b.png"],
    FSEntry.file "Images" ]

theorem walk_collect :
    collect_files ["Images"] [] true walkTree
      = .ok [["a.jpg"], ["sub", "b.png"], ["Images"]] := by
  rfl

theorem collect_files_characterization_witness :
    (["Images"] : FPath) ∈ [["a.jpg"], ["sub", "b.png"], ["Images"]] ↔
      ∃ rel, (["Images"] : FPath) = [] ++ rel ∧ ReachesFile walkTree rel ∧
        (∀ c ∈ rel, startsWithDot c = false) ∧ ∀ c ∈ rel.dropLast, c ∉ ["Images"] :=
  collect_files_characterization ["Images"] [] walkTree
    [["a.jpg"], ["sub", "b.png"], ["Images"]] walk_collect ["Images"]

/-- A world in which both the rename and the copy fail for every pair. -/
def failWorld : World where
  fsys := [["base", "b.txt"]]
  meta := fun _ => .ok ⟨3, "2026-02-12"⟩
  renameOk := fun _ _ => false
  copyOk := fun _ _ => false
  removeOk := fun _ => true
  createDirOk := fun _ => true
  logOpenOk := true
  logWriteOk := true
  today := "2026-02-12"

/-- The loop state at the start of a run in failWorld. -/
def failState : OrgState where
  fsys := failWorld.fsys
  stats := ⟨0, 0, 0, 0⟩
  seen := []
  log := some []

theorem organize_move_failure_recoverable_witness :
    ∃ s', processFile failWorld cexOpts default_categories failState ["base", "b.txt"]
        = .ok s' ∧
      s'.stats.errors = failState.stats.errors + 1 ∧
      s'.stats.moved = failState.stats.moved ∧
      s'.stats.skipped = failState.stats.skipped ∧
      s'.stats.duplicates = failState.stats.duplicates ∧
      (["base", "b.txt"] ∈ failState.fsys → ["base", "b.txt"] ∈ s'.fsys) :=
  organize_move_failure_recoverable failWorld cexOpts default_categories failState
    ["base", "b.txt"] "txt" "Documents" ⟨3, "2026-02-12"⟩
    [["base", "Documents"], ["base", "b.txt"]]
    rfl rfl rfl rfl rfl (by decide) (by decide) rfl rfl

/-- A world whose metadata reads always fail. -/
def badMetaWorld : World where
  fsys := []
  meta := fun _ => .error ("metadata failed")
  renameOk := fun _ _ => true
  copyOk := fun _ _ => true
  removeOk := fun _ => true
  createDirOk := fun _ => true
  logOpenOk := true
  logWriteOk := true
  today := "2026-02-12"

theorem organize_fatal_io_witness :
    organize badMetaWorld dupOpts default_categories false [] = .error ("read_dir failed") ∧
    organize badMetaWorld dupOpts default_categories true [FSEntry.file "x.txt"]
      = .error ("metadata failed") :=
  ⟨(organize_fatal_io badMetaWorld dupOpts default_categories false []).1
      ("read_dir failed") rfl,
   (organize_fatal_io badMetaWorld dupOpts default_categories true
      [FSEntry.file "x.txt"]).2 [] ["base", "x.txt"] [] none
      ⟨badMetaWorld.fsys, ⟨0, 0, 0, 0⟩, [], none⟩ "txt" ("metadata failed")
      rfl rfl rfl rfl rfl rfl⟩

theorem fingerprint_recorded_before_categorize_witness :
    processFile dupWorld dupOpts default_categories ⟨[], ⟨0, 0, 0, 0⟩, [], none⟩
        ["base", "weird.xyz"] =
      .ok { fsys := []
            stats := ⟨0, 0, 1, 0⟩
            seen := [("weird.xyz|2026-02-12|5", ["base", "weird.xyz"])]
            log := none } ∧
    ((("weird.xyz|2026-02-12|5", (["base", "weird.xyz"] : FPath)) :: []).lookup
        "weird.xyz|2026-02-12|5").isSome = true ∧
    (∀ (s2 : OrgState) (q : FPath) (e2 : String) (m2 : FileMeta),
      is_hidden_or_junk q = false → extOf q = some e2 → dupWorld.meta q = .ok m2 →
      (s2.seen.lookup (dupKey q m2)).isSome = true →
      processFile dupWorld dupOpts default_categories s2 q =
        .ok { s2 with stats := { s2.stats with duplicates := s2.stats.duplicates + 1 } }) := by
  have h := fingerprint_recorded_before_categorize dupWorld dupOpts default_categories
    ⟨[], ⟨0, 0, 0, 0⟩, [], none⟩ ["base", "weird.xyz"] "xyz" ⟨5, "2026-02-12"⟩
    rfl rfl rfl rfl rfl (by decide)
  exact h

theorem move_file_delete_failure_amended_witness :
    move_file cexWorld [["base", "b.txt"]] ["base", "b.txt"] ["base", "Documents", "b.txt"]
      = (["base", "Documents", "b.txt"] :: [["base", "b.txt"]],
          .error ("remove_file failed")) :=
  (move_file_delete_failure_amended cexWorld [["base", "b.txt"]] ["base", "b.txt"]
    ["base", "Documents", "b.txt"] rfl rfl rfl).1

end SmartOrganizer
